import Mathlib

/-!
Verification of the file-tree core: the node model (types.ts), the
default-selection resolver findDefaultFile (App component), and the
recursive tree renderer FileTree / FileTreeNode with its selection and
per-directory expansion state.

The React component state is modelled explicitly: each rendered
FileTreeNode instance is addressed by its path (the sequence of child
indices from the root), its useState(true) open flag lives in an
association list from paths to booleans where an absent entry means the
default value true, and unmounting a subtree (collapsing an ancestor)
deletes the entries of the instances below it, matching the lifecycle of
component-local state.
-/

/-- The union type file | directory from types.ts. -/
inductive FType where
  | file
  | directory
deriving DecidableEq, Repr

/-- The union type go | yaml | markdown | shell from types.ts. -/
inductive Lang where
  | go
  | yaml
  | markdown
  | shell
deriving DecidableEq, Repr

/-- The FileNode interface from types.ts: a name, a type tag, an
optional content string, an optional ordered children array, and an
optional language hint. -/
inductive FileNode where
  | mk (name : String) (type : FType) (content : Option String)
       (children : Option (List FileNode)) (language : Option Lang)

def FileNode.name : FileNode → String
  | .mk n _ _ _ _ => n

def FileNode.type : FileNode → FType
  | .mk _ t _ _ _ => t

def FileNode.content : FileNode → Option String
  | .mk _ _ c _ _ => c

def FileNode.children : FileNode → Option (List FileNode)
  | .mk _ _ _ ch _ => ch

def FileNode.language : FileNode → Option Lang
  | .mk _ _ _ _ l => l

/-- findDefaultFile from the App component: for each node in stored
order, return it if its name is protocol.md; otherwise, when a children
array is present, search it recursively and return any hit; otherwise
continue with the remaining siblings. -/
def findDefaultFile : List FileNode → Option FileNode
  | [] => none
  | .mk nm ty ct none lg :: rest =>
    if nm = "protocol.md" then some (.mk nm ty ct none lg)
    else findDefaultFile rest
  | .mk nm ty ct (some cs) lg :: rest =>
    if nm = "protocol.md" then some (.mk nm ty ct (some cs) lg)
    else
      match findDefaultFile cs with
      | some found => some found
      | none => findDefaultFile rest

/-- The depth-first pre-order listing of a forest: each node before its
children, children in their stored order, then the following siblings. -/
def preorderF : List FileNode → List FileNode
  | [] => []
  | .mk nm ty ct none lg :: rest =>
    .mk nm ty ct none lg :: preorderF rest
  | .mk nm ty ct (some cs) lg :: rest =>
    .mk nm ty ct (some cs) lg :: (preorderF cs ++ preorderF rest)

/-- The isSelected expression of FileTreeNode:
selectedFile?.name === node.name && selectedFile?.content === node.content.
When no file is selected the optional chaining yields undefined, which
never equals the (string) name, so the row is not highlighted. -/
def isSelected (sel : Option FileNode) (n : FileNode) : Bool :=
  match sel with
  | none => false
  | some s => s.name == n.name && s.content == n.content

/-- The address of one rendered FileTreeNode instance: the child indices
leading to it from the root of the forest. -/
abbrev NodePath := List Nat

/-- Read the open flag of the instance at path p: the most recent entry
recorded for p, or the useState(true) mount default when none exists. -/
def flagAt : List (NodePath × Bool) → NodePath → Bool
  | [], _ => true
  | (q, b) :: rest, p => if q = p then b else flagAt rest p

/-- underPath p q holds when q is strictly below p, that is, p is a
proper prefix of q. -/
def underPath : NodePath → NodePath → Bool
  | [], [] => false
  | [], _ :: _ => true
  | _ :: _, [] => false
  | a :: as, b :: bs => a == b && underPath as bs

/-- Drop the state entries of every instance strictly below p; this is
what unmounting the subtree under a collapsed directory does to the
component-local open flags. -/
def removeUnder : List (NodePath × Bool) → NodePath → List (NodePath × Bool)
  | [], _ => []
  | e :: rest, p =>
    if underPath p e.1 then removeUnder rest p else e :: removeUnder rest p

/-- One rendered row: its instance path, the node it shows, the nesting
level passed to it, and whether it carries the selected highlight. -/
structure Row where
  path : NodePath
  node : FileNode
  level : Nat
  selected : Bool

/-- The rows produced by FileTree for the node list ns, rendered with
selection sel and open flags fs, where the list hangs at position i of
the instance whose path is pre, at nesting depth level. Every node gets
one row; a node with a children array additionally renders the child
rows at level + 1 exactly while its own open flag is true. -/
def renderForest (sel : Option FileNode) (fs : List (NodePath × Bool))
    (pre : NodePath) (level i : Nat) : List FileNode → List Row
  | [] => []
  | .mk nm ty ct none lg :: rest =>
    { path := pre ++ [i], node := .mk nm ty ct none lg, level := level,
      selected := isSelected sel (.mk nm ty ct none lg) } ::
    renderForest sel fs pre level (i + 1) rest
  | .mk nm ty ct (some cs) lg :: rest =>
    { path := pre ++ [i], node := .mk nm ty ct (some cs) lg, level := level,
      selected := isSelected sel (.mk nm ty ct (some cs) lg) } ::
    ((if flagAt fs (pre ++ [i]) then
        renderForest sel fs (pre ++ [i]) (level + 1) 0 cs
      else []) ++
     renderForest sel fs pre level (i + 1) rest)

/-- The App state: the selectedFile store plus the open flags of all
mounted FileTreeNode instances. -/
structure AppState where
  selectedFile : Option FileNode
  flags : List (NodePath × Bool)

/-- The full row list the App shows for a forest in a given state. -/
def render (forest : List FileNode) (s : AppState) : List Row :=
  renderForest s.selectedFile s.flags [] 0 0 forest

/-- The row currently rendered at path p, if any. -/
def rowAt (rows : List Row) (p : NodePath) : Option Row :=
  rows.find? (fun r => r.path == p)

/-- A click on the row at path p, following handleClick of
FileTreeNode: on a directory row, setIsOpen(!isOpen) toggles only that
flag of that instance (collapsing additionally unmounts the instances below
it); on a file row, onSelect(node) stores that node as the selection. A
path with no rendered row offers nothing to click, so the state is
unchanged. -/
def clickAt (forest : List FileNode) (s : AppState) (p : NodePath) : AppState :=
  match rowAt (render forest s) p with
  | none => s
  | some r =>
    match r.node.type with
    | .directory =>
      let cur := flagAt s.flags p
      { s with flags := (p, !cur) :: (if cur then removeUnder s.flags p else s.flags) }
    | .file => { s with selectedFile := some r.node }

/-- A sequence of clicks, applied in order. -/
def stepMany (forest : List FileNode) : AppState → List NodePath → AppState
  | s, [] => s
  | s, p :: ps => stepMany forest (clickAt forest s p) ps

/-- The state before the mount effect: useState(null) for the
selection, and no instance flags recorded yet, so every directory
mounts open. -/
def initialState : AppState := { selectedFile := none, flags := [] }

/-- The value the mount effect computes for the first root:
findDefaultFile(PROJECT_FILES[0].children || []). -/
def mountResult (root : FileNode) : Option FileNode :=
  findDefaultFile (root.children.getD [])

/-- The writes the mount effect issues to the selection store: exactly
one write when the resolver finds a node, none otherwise. The App only
ever runs this on its fixed nonempty forest, so the empty case is
unreachable. -/
def mountWrites : List FileNode → List (Option FileNode)
  | [] => []
  | root :: _ =>
    match mountResult root with
    | some f => [some f]
    | none => []

/-- The App state right after the mount effect ran. -/
def afterMount : List FileNode → AppState
  | [] => initialState
  | root :: _ =>
    match mountResult root with
    | some f => { initialState with selectedFile := some f }
    | none => initialState

/-- The protocol.md file node of Scenario A. -/
def protocolNode : FileNode := .mk "protocol.md" .file (some "X") none none

/-- The a.go file node of Scenario A. -/
def aGoNode : FileNode := .mk "a.go" .file (some "Y") none none

/-- The root directory node of Scenarios A and B. -/
def rootNode : FileNode :=
  .mk "root" .directory none (some [protocolNode, aGoNode]) none

/-- The forest of Scenarios A and B: one root directory holding
protocol.md and a.go. -/
def scenarioA : List FileNode := [rootNode]

/-- The forest of Scenario C: one childless root directory. -/
def scenarioC : List FileNode :=
  [.mk "root" .directory none (some []) none]

/-- A one-node forest whose root is a directory named protocol.md, used
to show the highlight predicate also fires on directory rows. -/
def dirProtocolForest : List FileNode :=
  [.mk "protocol.md" .directory none (some []) none]

/-- The single row the one-directory forest renders when the resolver
result is the current selection. -/
def dirProtocolRow : Row :=
  { path := [0]
    node := FileNode.mk "protocol.md" FType.directory none (some []) none
    level := 0
    selected := isSelected (findDefaultFile dirProtocolForest)
      (FileNode.mk "protocol.md" FType.directory none (some []) none) }

/-- The a.go row as rendered in the mounted Scenario A state. -/
def aGoRowA : Row := { path := [0, 1], node := aGoNode, level := 1, selected := false }

/-- The protocol.md row as rendered after a.go has been selected. -/
def protoRowB : Row := { path := [0, 0], node := protocolNode, level := 1, selected := false }

/-- The root directory row as rendered in the initial Scenario A state. -/
def rootRow0 : Row := { path := [0], node := rootNode, level := 0, selected := false }

/-- A second file node named protocol.md with different content, used
to exhibit that the stored order alone decides which match wins. -/
def protocolNodeZ : FileNode := .mk "protocol.md" .file (some "Z") none none

@[simp] theorem FileNode.name_mk (n : String) (t : FType) (c : Option String)
    (ch : Option (List FileNode)) (l : Option Lang) :
    (FileNode.mk n t c ch l).name = n := rfl

@[simp] theorem FileNode.type_mk (n : String) (t : FType) (c : Option String)
    (ch : Option (List FileNode)) (l : Option Lang) :
    (FileNode.mk n t c ch l).type = t := rfl

@[simp] theorem FileNode.content_mk (n : String) (t : FType) (c : Option String)
    (ch : Option (List FileNode)) (l : Option Lang) :
    (FileNode.mk n t c ch l).content = c := rfl

@[simp] theorem FileNode.children_mk (n : String) (t : FType) (c : Option String)
    (ch : Option (List FileNode)) (l : Option Lang) :
    (FileNode.mk n t c ch l).children = ch := rfl

@[simp] theorem FileNode.language_mk (n : String) (t : FType) (c : Option String)
    (ch : Option (List FileNode)) (l : Option Lang) :
    (FileNode.mk n t c ch l).language = l := rfl

/-- The resolver agrees with List.find? of the sentinel predicate over
the pre-order listing of the forest. -/
theorem resolver_preorder (ns : List FileNode) :
    findDefaultFile ns = (preorderF ns).find? (fun n => n.name == "protocol.md") := by
  induction ns using findDefaultFile.induct with
  | case1 => simp [findDefaultFile, preorderF]
  | case2 ty ct lg rest =>
    simp [findDefaultFile, preorderF]
  | case3 nm ty ct lg rest hnm ih =>
    simp [findDefaultFile, preorderF, hnm, ih]
  | case4 ty ct cs lg rest =>
    simp [findDefaultFile, preorderF]
  | case5 nm ty ct cs lg rest hnm found hfound ih =>
    simp [findDefaultFile, preorderF, hnm, hfound, ← ih]
  | case6 nm ty ct cs lg rest hnm hnone ih1 ih2 =>
    simp [findDefaultFile, preorderF, hnm, hnone, ← ih1, ih2]

/-- C1: findDefaultFile returns the first node, at any depth, whose
name equals the sentinel protocol.md under depth-first pre-order
traversal following children in stored order; equivalently, it is
List.find? of the sentinel predicate over the pre-order listing, so
when the sentinel occurs at two positions it returns the
earlier-in-traversal match and short-circuits the rest. -/
theorem c1_resolver_first_preorder_match (ns : List FileNode) :
    findDefaultFile ns = (preorderF ns).find? (fun n => n.name == "protocol.md") :=
  resolver_preorder ns

/-- Every row a render pass emits carries exactly the highlight value
the isSelected expression computes for its node. -/
theorem selected_eq_isSelected (sel : Option FileNode) (fs : List (NodePath × Bool))
    (pre : NodePath) (level i : Nat) (ns : List FileNode) :
    ∀ row ∈ renderForest sel fs pre level i ns, row.selected = isSelected sel row.node := by
  induction pre, level, i, ns using renderForest.induct sel fs with
  | case1 pre level i => simp [renderForest]
  | case2 pre level i nm ty ct lg rest ih =>
    intro row hrow
    rw [renderForest] at hrow
    rcases List.mem_cons.mp hrow with h | h
    · subst h; simp
    · exact ih row h
  | case3 pre level i nm ty ct cs lg rest ih1 ih2 =>
    intro row hrow
    rw [renderForest] at hrow
    rcases List.mem_cons.mp hrow with h | h
    · subst h; simp
    · rcases List.mem_append.mp h with h2 | h2
      · by_cases hf : flagAt fs (pre ++ [i]) = true
        · rw [if_pos hf] at h2
          exact ih1 row h2
        · rw [if_neg hf] at h2
          simp at h2
      · exact ih2 row h2

/-- C2: a rendered file row is highlighted as selected exactly when a
node is currently selected whose name equals the name of the row node
and whose content equals the content of the row node, a (name, content) pair
equality, not reference identity and not name alone. -/
theorem c2_file_row_highlight_pair_eq (sel : Option FileNode)
    (fs : List (NodePath × Bool)) (forest : List FileNode) (row : Row)
    (hrow : row ∈ render forest { selectedFile := sel, flags := fs })
    (hfile : row.node.type = FType.file) :
    row.selected = true ↔
      ∃ s, sel = some s ∧ s.name = row.node.name ∧ s.content = row.node.content := by
  have h := selected_eq_isSelected sel fs [] 0 0 forest row hrow
  rw [h]
  cases sel with
  | none => simp [isSelected]
  | some s => simp [isSelected]

/-- C2 witness: in the Scenario A forest with protocol.md selected, the
protocol.md file row is highlighted, and the characterization holds at
that concrete row. -/
theorem c2_witness :
    (({ path := [0, 0], node := protocolNode, level := 1,
        selected := isSelected (some protocolNode) protocolNode } : Row).selected = true ↔
      ∃ s, (some protocolNode : Option FileNode) = some s ∧
        s.name = protocolNode.name ∧ s.content = protocolNode.content) := by
  refine c2_file_row_highlight_pair_eq (some protocolNode) [] scenarioA _ ?_ ?_
  · simp [render, renderForest, scenarioA, rootNode, protocolNode, aGoNode, flagAt]
  · simp [protocolNode]

/-- C10: the selected-highlight predicate is evaluated for every
rendered row, directory rows included; concretely, when the resolver
default-selects the directory named protocol.md (both content fields
absent), that directory row renders as selected. -/
theorem c10_highlight_on_directory_rows :
    (∀ (sel : Option FileNode) (fs : List (NodePath × Bool)) (forest : List FileNode)
       (row : Row), row ∈ render forest { selectedFile := sel, flags := fs } →
         row.selected = isSelected sel row.node) ∧
    (∃ row ∈ render dirProtocolForest
        { selectedFile := findDefaultFile dirProtocolForest, flags := [] },
      row.node.type = FType.directory ∧ row.selected = true) := by
  constructor
  · intro sel fs forest row hrow
    exact selected_eq_isSelected sel fs [] 0 0 forest row hrow
  · refine ⟨dirProtocolRow, ?_, ?_, ?_⟩
    · simp [render, renderForest, dirProtocolForest, dirProtocolRow, flagAt]
    · simp [dirProtocolRow]
    · simp [dirProtocolRow, dirProtocolForest, findDefaultFile, isSelected]

/-- C10 witness: the general highlight rule applied at the concrete
directory row of the one-directory forest. -/
theorem c10_witness :
    dirProtocolRow.selected =
      isSelected (findDefaultFile dirProtocolForest) dirProtocolRow.node := by
  refine c10_highlight_on_directory_rows.1 (findDefaultFile dirProtocolForest) []
    dirProtocolForest _ ?_
  simp [render, renderForest, dirProtocolForest, dirProtocolRow, flagAt]

/-- C6: on a forest in which no node at any depth bears the sentinel
name, the resolver returns none rather than failing, and the mount pass
on the Scenario C forest leaves the store at its no-selection state. -/
theorem c6_no_match_no_selection :
    (∀ ns : List FileNode, (∀ n ∈ preorderF ns, n.name ≠ "protocol.md") →
      findDefaultFile ns = none) ∧
    afterMount scenarioC = initialState := by
  constructor
  · intro ns h
    rw [resolver_preorder]
    refine List.find?_eq_none.mpr ?_
    intro n hn
    simpa using h n hn
  · simp [afterMount, scenarioC, mountResult, findDefaultFile, initialState]

/-- C6 witness: the Scenario C forest has no sentinel-named node, and
the resolver returns none on it. -/
theorem c6_witness :
    (∀ n ∈ preorderF scenarioC, n.name ≠ "protocol.md") ∧
    findDefaultFile scenarioC = none := by
  have h : ∀ n ∈ preorderF scenarioC, n.name ≠ "protocol.md" := by
    simp [preorderF, scenarioC]
  exact ⟨h, c6_no_match_no_selection.1 scenarioC h⟩

/-- Clicking a path with no rendered row leaves the state unchanged. -/
theorem clickAt_of_none (forest : List FileNode) (s : AppState) (p : NodePath)
    (hrow : rowAt (render forest s) p = none) : clickAt forest s p = s := by
  simp [clickAt, hrow]

/-- Clicking a rendered file row stores exactly that node as the
selection and touches nothing else. -/
theorem clickAt_of_file (forest : List FileNode) (s : AppState) (p : NodePath) (r : Row)
    (hrow : rowAt (render forest s) p = some r) (hf : r.node.type = FType.file) :
    clickAt forest s p = { s with selectedFile := some r.node } := by
  simp [clickAt, hrow, hf]

/-- Clicking a rendered directory row records the negated flag for that
path (dropping the unmounted entries below it when collapsing) and
leaves the selection store alone. -/
theorem clickAt_of_dir (forest : List FileNode) (s : AppState) (p : NodePath) (r : Row)
    (hrow : rowAt (render forest s) p = some r) (hd : r.node.type = FType.directory) :
    clickAt forest s p =
      { s with flags := (p, !flagAt s.flags p) ::
          (if flagAt s.flags p then removeUnder s.flags p else s.flags) } := by
  simp [clickAt, hrow, hd]

/-- Any click that changes the selection store is a click on a rendered
file row, and it writes exactly the node of that row. -/
theorem clickAt_sel_writer (forest : List FileNode) (s : AppState) (p : NodePath)
    (h : (clickAt forest s p).selectedFile ≠ s.selectedFile) :
    ∃ r, rowAt (render forest s) p = some r ∧ r.node.type = FType.file ∧
      (clickAt forest s p).selectedFile = some r.node := by
  cases hrow : rowAt (render forest s) p with
  | none =>
    rw [clickAt_of_none forest s p hrow] at h
    exact absurd rfl h
  | some r =>
    cases hty : r.node.type with
    | directory =>
      rw [clickAt_of_dir forest s p r hrow hty] at h
      exact absurd rfl h
    | file =>
      refine ⟨r, rfl, hty, ?_⟩
      rw [clickAt_of_file forest s p r hrow hty]

/-- C3: at mount the selection store receives exactly one write, whose
value is the resolver result, which for the Scenario A forest is the
protocol.md node and agrees with the resolver applied to the whole
supplied forest; and the only other writer of the store is the file-row
click callback, which writes exactly the node of the clicked row. -/
theorem c3_mount_single_write_and_writers :
    mountWrites scenarioA = [some protocolNode] ∧
    findDefaultFile scenarioA = some protocolNode ∧
    (afterMount scenarioA).selectedFile = some protocolNode ∧
    (∀ (forest : List FileNode) (s : AppState) (p : NodePath),
      (clickAt forest s p).selectedFile ≠ s.selectedFile →
      ∃ r, rowAt (render forest s) p = some r ∧ r.node.type = FType.file ∧
        (clickAt forest s p).selectedFile = some r.node) := by
  refine ⟨?_, ?_, ?_, ?_⟩
  · simp [mountWrites, mountResult, scenarioA, rootNode, protocolNode, aGoNode, findDefaultFile]
  · simp [scenarioA, rootNode, protocolNode, aGoNode, findDefaultFile]
  · simp [afterMount, mountResult, scenarioA, rootNode, protocolNode, aGoNode, findDefaultFile]
  · exact clickAt_sel_writer

/-- C3 witness: in the mounted Scenario A state, clicking the a.go row
changes the store, and the change is a file-row write of that node. -/
theorem c3_witness :
    ∃ r, rowAt (render scenarioA (afterMount scenarioA)) [0, 1] = some r ∧
      r.node.type = FType.file ∧
      (clickAt scenarioA (afterMount scenarioA) [0, 1]).selectedFile = some r.node := by
  refine c3_mount_single_write_and_writers.2.2.2 scenarioA (afterMount scenarioA) [0, 1] ?_
  have hrow : rowAt (render scenarioA (afterMount scenarioA)) [0, 1] = some aGoRowA := by
    simp [rowAt, render, renderForest, scenarioA, rootNode, afterMount, mountResult,
      findDefaultFile, protocolNode, aGoNode, flagAt, isSelected, initialState, aGoRowA]
  rw [clickAt_of_file scenarioA (afterMount scenarioA) [0, 1] aGoRowA hrow
    (by simp [aGoRowA, aGoNode])]
  simp [aGoRowA, aGoNode, protocolNode, afterMount, mountResult, scenarioA, rootNode,
    findDefaultFile, initialState]

/-- C4: the selection store always holds zero or one node, and after
clicking file row A and then file row B the store holds exactly the
node of B, so the node of A (when different) is no longer selected; no deselect
operation exists, the new selection simply replaces the old one. -/
theorem c4_selection_exclusivity :
    (∀ (forest : List FileNode) (ps : List NodePath),
      (stepMany forest (afterMount forest) ps).selectedFile = none ∨
      ∃ n, (stepMany forest (afterMount forest) ps).selectedFile = some n) ∧
    (∀ (forest : List FileNode) (s : AppState) (pA pB : NodePath) (rA rB : Row),
      rowAt (render forest s) pA = some rA → rA.node.type = FType.file →
      rowAt (render forest (clickAt forest s pA)) pB = some rB → rB.node.type = FType.file →
      (clickAt forest (clickAt forest s pA) pB).selectedFile = some rB.node ∧
      (rB.node ≠ rA.node →
        (clickAt forest (clickAt forest s pA) pB).selectedFile ≠ some rA.node)) := by
  constructor
  · intro forest ps
    cases h : (stepMany forest (afterMount forest) ps).selectedFile with
    | none => exact Or.inl rfl
    | some n => exact Or.inr ⟨n, rfl⟩
  · intro forest s pA pB rA rB hA htA hB htB
    rw [clickAt_of_file forest (clickAt forest s pA) pB rB hB htB]
    refine ⟨rfl, ?_⟩
    intro hne hcontra
    simp at hcontra
    exact hne hcontra

/-- C4 witness: in mounted Scenario A, selecting a.go and then
protocol.md leaves a.go unselected. -/
theorem c4_witness :
    (clickAt scenarioA (clickAt scenarioA (afterMount scenarioA) [0, 1]) [0, 0]).selectedFile ≠
      some aGoRowA.node := by
  have hA : rowAt (render scenarioA (afterMount scenarioA)) [0, 1] = some aGoRowA := by
    simp [rowAt, render, renderForest, scenarioA, rootNode, afterMount, mountResult,
      findDefaultFile, protocolNode, aGoNode, flagAt, isSelected, initialState, aGoRowA]
  have hB : rowAt (render scenarioA (clickAt scenarioA (afterMount scenarioA) [0, 1])) [0, 0] =
      some protoRowB := by
    rw [clickAt_of_file scenarioA (afterMount scenarioA) [0, 1] aGoRowA hA
      (by simp [aGoRowA, aGoNode])]
    simp [rowAt, render, renderForest, scenarioA, rootNode, afterMount, mountResult,
      findDefaultFile, protocolNode, aGoNode, flagAt, isSelected, initialState, aGoRowA, protoRowB]
  exact (c4_selection_exclusivity.2 scenarioA (afterMount scenarioA) [0, 1] [0, 0] aGoRowA
    protoRowB hA (by simp [aGoRowA, aGoNode]) hB (by simp [protoRowB, protocolNode])).2
    (by simp [protoRowB, aGoRowA, protocolNode, aGoNode])

/-- The flag just recorded for a path is the one read back. -/
theorem flagAt_cons_self (fs : List (NodePath × Bool)) (p : NodePath) (b : Bool) :
    flagAt ((p, b) :: fs) p = b := by
  simp [flagAt]

/-- Recording a flag for one path leaves the flag of every other path as it
was. -/
theorem flagAt_cons_ne (fs : List (NodePath × Bool)) (p q : NodePath) (b : Bool)
    (h : p ≠ q) : flagAt ((p, b) :: fs) q = flagAt fs q := by
  simp [flagAt, h]

/-- Unmounting the instances below p does not change the flag read at
any path that is not strictly below p. -/
theorem flagAt_removeUnder (fs : List (NodePath × Bool)) (p q : NodePath)
    (h : underPath p q = false) : flagAt (removeUnder fs p) q = flagAt fs q := by
  induction fs with
  | nil => rfl
  | cons e rest ih =>
    obtain ⟨k, b⟩ := e
    by_cases hk : underPath p k = true
    · have hkq : k ≠ q := by
        intro hkq
        rw [hkq, h] at hk
        cases hk
      rw [removeUnder, if_pos hk, ih, flagAt_cons_ne rest k q b hkq]
    · rw [removeUnder, if_neg hk]
      by_cases hkq : k = q
      · subst hkq
        rw [flagAt_cons_self, flagAt_cons_self]
      · rw [flagAt_cons_ne _ k q b hkq, flagAt_cons_ne rest k q b hkq, ih]

/-- C5: clicking a rendered directory row leaves the selection store
unchanged, toggles the expanded flag of that instance, and changes no flag
at any other path outside the unmounted subtree below it; clicking a
rendered file row writes exactly that node to the selection store and
leaves every expansion flag untouched. -/
theorem c5_click_frame (forest : List FileNode) (s : AppState) (p : NodePath) (r : Row)
    (hrow : rowAt (render forest s) p = some r) :
    (r.node.type = FType.directory →
      (clickAt forest s p).selectedFile = s.selectedFile ∧
      flagAt (clickAt forest s p).flags p = !flagAt s.flags p ∧
      (∀ q : NodePath, q ≠ p → underPath p q = false →
        flagAt (clickAt forest s p).flags q = flagAt s.flags q)) ∧
    (r.node.type = FType.file →
      (clickAt forest s p).selectedFile = some r.node ∧
      (clickAt forest s p).flags = s.flags) := by
  constructor
  · intro hd
    rw [clickAt_of_dir forest s p r hrow hd]
    refine ⟨rfl, flagAt_cons_self _ p _, ?_⟩
    intro q hq hu
    show flagAt ((p, !flagAt s.flags p) ::
      (if flagAt s.flags p then removeUnder s.flags p else s.flags)) q = flagAt s.flags q
    rw [flagAt_cons_ne _ p q _ (Ne.symm hq)]
    by_cases hcur : flagAt s.flags p = true
    · rw [if_pos hcur]
      exact flagAt_removeUnder s.flags p q hu
    · rw [if_neg hcur]
  · intro hf
    rw [clickAt_of_file forest s p r hrow hf]
    exact ⟨rfl, rfl⟩

/-- C5 witness: clicking the Scenario A root directory row keeps the
selection store value and toggles the expanded flag of that row. -/
theorem c5_witness :
    (clickAt scenarioA initialState [0]).selectedFile = initialState.selectedFile ∧
    flagAt (clickAt scenarioA initialState [0]).flags [0] = !flagAt initialState.flags [0] := by
  have hrow : rowAt (render scenarioA initialState) [0] = some rootRow0 := by
    simp [rowAt, render, renderForest, scenarioA, rootNode, protocolNode, aGoNode, flagAt,
      isSelected, initialState, rootRow0]
  have h := (c5_click_frame scenarioA initialState [0] rootRow0 hrow).1
    (by simp [rootRow0, rootNode])
  exact ⟨h.1, h.2.1⟩

/-- Re-rendering with a different selection produces the same rows with
only the highlight field recomputed; paths, nodes and levels do not
depend on the selection. -/
theorem renderForest_sel_map (sel selB : Option FileNode) (fs : List (NodePath × Bool))
    (pre : NodePath) (level i : Nat) (ns : List FileNode) :
    renderForest selB fs pre level i ns =
      (renderForest sel fs pre level i ns).map
        (fun r => { r with selected := isSelected selB r.node }) := by
  induction pre, level, i, ns using renderForest.induct sel fs with
  | case1 pre level i => simp [renderForest]
  | case2 pre level i nm ty ct lg rest ih =>
    simp [renderForest, ih]
  | case3 pre level i nm ty ct cs lg rest ih1 ih2 =>
    simp [renderForest, ih1, ih2,
      apply_ite (List.map (fun r : Row => { r with selected := isSelected selB r.node }))]

/-- Looking up the row at a path after a pure selection change yields
the same row with the highlight recomputed. -/
theorem rowAt_render_sel (forest : List FileNode) (sel selB : Option FileNode)
    (fs : List (NodePath × Bool)) (p : NodePath) :
    rowAt (render forest { selectedFile := selB, flags := fs }) p =
      (rowAt (render forest { selectedFile := sel, flags := fs }) p).map
        (fun r => { r with selected := isSelected selB r.node }) := by
  show rowAt (renderForest selB fs [] 0 0 forest) p = _
  rw [renderForest_sel_map sel selB fs [] 0 0 forest]
  unfold rowAt
  rw [List.find?_map]
  rfl

/-- C7: clicking a rendered file row a second time is a no-op for the
whole application state; in particular the selection store value is the
same after one click and after two. -/
theorem c7_idempotent_reselection (forest : List FileNode) (s : AppState) (p : NodePath)
    (r : Row) (hrow : rowAt (render forest s) p = some r)
    (hf : r.node.type = FType.file) :
    clickAt forest (clickAt forest s p) p = clickAt forest s p := by
  obtain ⟨sel0, fs0⟩ := s
  have h1 : clickAt forest ⟨sel0, fs0⟩ p = ⟨some r.node, fs0⟩ :=
    clickAt_of_file forest ⟨sel0, fs0⟩ p r hrow hf
  rw [h1]
  have h2 : rowAt (render forest ⟨some r.node, fs0⟩) p =
      some { r with selected := isSelected (some r.node) r.node } := by
    rw [rowAt_render_sel forest sel0 (some r.node) fs0 p, hrow]
    rfl
  have h3 := clickAt_of_file forest ⟨some r.node, fs0⟩ p _ h2 (by simpa using hf)
  rw [h3]

/-- C7 witness: re-clicking the already selected a.go row of Scenario A
changes nothing. -/
theorem c7_witness :
    clickAt scenarioA (clickAt scenarioA (afterMount scenarioA) [0, 1]) [0, 1] =
      clickAt scenarioA (afterMount scenarioA) [0, 1] := by
  have hrow : rowAt (render scenarioA (afterMount scenarioA)) [0, 1] = some aGoRowA := by
    simp [rowAt, render, renderForest, scenarioA, rootNode, afterMount, mountResult,
      findDefaultFile, protocolNode, aGoNode, flagAt, isSelected, initialState, aGoRowA]
  exact c7_idempotent_reselection scenarioA (afterMount scenarioA) [0, 1] aGoRowA hrow
    (by simp [aGoRowA, aGoNode])

/-- C9: the resolver is deterministic, any two calls on the same forest
give the same result; and traversal follows exactly the declared child
order, never re-sorting: with two sentinel-named nodes the stored-first
one wins, in either order. -/
theorem c9_deterministic_stored_order :
    (∀ (ns : List FileNode) (r1 r2 : Option FileNode),
      findDefaultFile ns = r1 → findDefaultFile ns = r2 → r1 = r2) ∧
    (∀ a b : FileNode, a.name = "protocol.md" → b.name = "protocol.md" →
      findDefaultFile [a, b] = some a ∧ findDefaultFile [b, a] = some b) := by
  constructor
  · intro ns r1 r2 h1 h2
    rw [← h1, ← h2]
  · intro a b ha hb
    obtain ⟨na, ta, ca, cha, la⟩ := a
    obtain ⟨nb, tb, cb, chb, lb⟩ := b
    simp only [FileNode.name_mk] at ha hb
    subst ha
    subst hb
    cases cha <;> cases chb <;> simp [findDefaultFile]

/-- C9 witness: between two protocol.md files with different contents,
the resolver picks whichever is stored first. -/
theorem c9_witness :
    findDefaultFile [protocolNode, protocolNodeZ] = some protocolNode ∧
    findDefaultFile [protocolNodeZ, protocolNode] = some protocolNodeZ :=
  c9_deterministic_stored_order.2 protocolNode protocolNodeZ (by simp [protocolNode])
    (by simp [protocolNodeZ])

/-- A proper prefix is strictly shorter. -/
theorem underPath_length {p q : NodePath} (h : underPath p q = true) :
    p.length < q.length := by
  induction p generalizing q with
  | nil =>
    cases q with
    | nil => simp [underPath] at h
    | cons b bs => simp
  | cons a as ih =>
    cases q with
    | nil => simp [underPath] at h
    | cons b bs =>
      simp only [underPath, Bool.and_eq_true, beq_iff_eq] at h
      simpa using ih h.2

/-- A path is strictly above any nonempty extension of itself. -/
theorem underPath_append {p l : NodePath} (hl : l ≠ []) :
    underPath p (p ++ l) = true := by
  induction p with
  | nil =>
    cases l with
    | nil => exact absurd rfl hl
    | cons x xs => simp [underPath]
  | cons a as ih => simp [underPath, ih]

/-- Being strictly above is transitive. -/
theorem underPath_trans {a b c : NodePath} (h1 : underPath a b = true)
    (h2 : underPath b c = true) : underPath a c = true := by
  induction a generalizing b c with
  | nil =>
    cases c with
    | nil => cases b <;> simp [underPath] at h2
    | cons z zs => simp [underPath]
  | cons x xs ih =>
    cases b with
    | nil => simp [underPath] at h1
    | cons y ys =>
      cases c with
      | nil => simp [underPath] at h2
      | cons z zs =>
        simp only [underPath, Bool.and_eq_true, beq_iff_eq] at h1 h2 ⊢
        exact ⟨h1.1.trans h2.1, ih h1.2 h2.2⟩

/-- Of two proper prefixes of the same path, the shorter one is a
proper prefix of the longer one. -/
theorem underPath_of_shorter {a b c : NodePath} (ha : underPath a c = true)
    (hb : underPath b c = true) (hlen : a.length < b.length) :
    underPath a b = true := by
  induction a generalizing b c with
  | nil =>
    cases b with
    | nil => simp at hlen
    | cons y ys => simp [underPath]
  | cons x xs ih =>
    cases c with
    | nil => simp [underPath] at ha
    | cons z zs =>
      cases b with
      | nil => simp at hlen
      | cons y ys =>
        simp only [underPath, Bool.and_eq_true, beq_iff_eq] at ha hb ⊢
        refine ⟨ha.1.trans hb.1.symm, ?_⟩
        exact ih ha.2 hb.2 (by simpa using hlen)

/-- Two proper prefixes of the same path with equal length are equal. -/
theorem underPath_eq_of_length {a b c : NodePath} (ha : underPath a c = true)
    (hb : underPath b c = true) (hlen : a.length = b.length) : a = b := by
  induction a generalizing b c with
  | nil =>
    cases b with
    | nil => rfl
    | cons y ys => simp at hlen
  | cons x xs ih =>
    cases b with
    | nil => simp at hlen
    | cons y ys =>
      cases c with
      | nil => simp [underPath] at ha
      | cons z zs =>
        simp only [underPath, Bool.and_eq_true, beq_iff_eq] at ha hb
        have heq := ih ha.2 hb.2 (by simpa using hlen)
        rw [ha.1, ← hb.1, heq]

/-- Every row a render pass emits lives strictly below the path of the
instance that spawned the pass. -/
theorem renderForest_path_under (sel : Option FileNode) (fs : List (NodePath × Bool))
    (pre : NodePath) (level i : Nat) (ns : List FileNode) :
    ∀ row ∈ renderForest sel fs pre level i ns, underPath pre row.path = true := by
  induction pre, level, i, ns using renderForest.induct sel fs with
  | case1 pre level i => simp [renderForest]
  | case2 pre level i nm ty ct lg rest ih =>
    intro row hrow
    rw [renderForest] at hrow
    rcases List.mem_cons.mp hrow with h | h
    · subst h
      simpa using underPath_append (by simp)
    · exact ih row h
  | case3 pre level i nm ty ct cs lg rest ih1 ih2 =>
    intro row hrow
    rw [renderForest] at hrow
    rcases List.mem_cons.mp hrow with h | h
    · subst h
      simpa using underPath_append (by simp)
    · rcases List.mem_append.mp h with h2 | h2
      · by_cases hf : flagAt fs (pre ++ [i]) = true
        · rw [if_pos hf] at h2
          exact underPath_trans (underPath_append (by simp)) (ih1 row h2)
        · rw [if_neg hf] at h2
          simp at h2
      · exact ih2 row h2

/-- Every node of the rendered list gets its own row, at the position
matching its index and at the level of the pass. -/
theorem renderForest_child_row (sel : Option FileNode) (fs : List (NodePath × Bool))
    (pre : NodePath) (level : Nat) (ns : List FileNode) :
    ∀ (i j : Nat) (c : FileNode), ns[j]? = some c →
      ∃ row ∈ renderForest sel fs pre level i ns,
        row.path = pre ++ [i + j] ∧ row.node = c ∧ row.level = level := by
  induction ns with
  | nil =>
    intro i j c hc
    simp at hc
  | cons n rest ih =>
    intro i j c hc
    obtain ⟨nm, ty, ct, ch, lg⟩ := n
    cases j with
    | zero =>
      simp only [List.getElem?_cons_zero, Option.some.injEq] at hc
      subst hc
      cases ch with
      | none =>
        rw [renderForest]
        exact ⟨_, List.mem_cons_self _ _, by simp, rfl, rfl⟩
      | some cs =>
        rw [renderForest]
        exact ⟨_, List.mem_cons_self _ _, by simp, rfl, rfl⟩
    | succ j0 =>
      simp only [List.getElem?_cons_succ] at hc
      obtain ⟨row, hmem, hpath, hnode, hlevel⟩ := ih (i + 1) j0 c hc
      have harith : i + 1 + j0 = i + (j0 + 1) := by omega
      cases ch with
      | none =>
        rw [renderForest]
        refine ⟨row, List.mem_cons_of_mem _ hmem, ?_, hnode, hlevel⟩
        rw [hpath, harith]
      | some cs =>
        rw [renderForest]
        refine ⟨row, List.mem_cons_of_mem _ (List.mem_append_right _ hmem), ?_, hnode, hlevel⟩
        rw [hpath, harith]

/-- While the open flag of a rendered node is true, each child c at index j
of its children array is rendered as a row at the parent path extended
by j, one level deeper. -/
theorem renderForest_children_rendered (sel : Option FileNode) (fs : List (NodePath × Bool))
    (pre : NodePath) (level i : Nat) (ns : List FileNode) :
    ∀ row ∈ renderForest sel fs pre level i ns,
      ∀ (cs : List FileNode) (j : Nat) (c : FileNode),
      row.node.children = some cs → flagAt fs row.path = true → cs[j]? = some c →
      ∃ rowB ∈ renderForest sel fs pre level i ns,
        rowB.path = row.path ++ [j] ∧ rowB.node = c ∧ rowB.level = row.level + 1 := by
  induction pre, level, i, ns using renderForest.induct sel fs with
  | case1 pre level i => simp [renderForest]
  | case2 pre level i nm ty ct lg rest ih =>
    intro row hrow cs j c hch hflag hc
    rw [renderForest] at hrow ⊢
    rcases List.mem_cons.mp hrow with h | h
    · subst h
      simp at hch
    · obtain ⟨rowB, hmem, hrest⟩ := ih row h cs j c hch hflag hc
      exact ⟨rowB, List.mem_cons_of_mem _ hmem, hrest⟩
  | case3 pre level i nm ty ct cs0 lg rest ih1 ih2 =>
    intro row hrow cs j c hch hflag hc
    rw [renderForest] at hrow ⊢
    rcases List.mem_cons.mp hrow with h | h
    · subst h
      simp only [Row.mk.injEq] at *
      have hcs : cs0 = cs := by simpa using hch
      subst hcs
      have hflag2 : flagAt fs (pre ++ [i]) = true := by simpa using hflag
      obtain ⟨rowB, hmem, hpath, hnode, hlevel⟩ :=
        renderForest_child_row sel fs (pre ++ [i]) (level + 1) cs0 0 j c hc
      refine ⟨rowB, ?_, ?_, hnode, ?_⟩
      · refine List.mem_cons_of_mem _ (List.mem_append_left _ ?_)
        rw [if_pos hflag2]
        exact hmem
      · rw [hpath]
        simp
      · rw [hlevel]
    · rcases List.mem_append.mp h with h2 | h2
      · by_cases hf : flagAt fs (pre ++ [i]) = true
        · rw [if_pos hf] at h2
          obtain ⟨rowB, hmem, hrest⟩ := ih1 row h2 cs j c hch hflag hc
          refine ⟨rowB, ?_, hrest⟩
          refine List.mem_cons_of_mem _ (List.mem_append_left _ ?_)
          rw [if_pos hf]
          exact hmem
        · rw [if_neg hf] at h2
          simp at h2
      · obtain ⟨rowB, hmem, hrest⟩ := ih2 row h2 cs j c hch hflag hc
        exact ⟨rowB, List.mem_cons_of_mem _ (List.mem_append_right _ hmem), hrest⟩

/-- Every strict ancestor (below the root of the pass) of a rendered
path of a rendered row has its open flag set to true. -/
theorem renderForest_ancestor_open (sel : Option FileNode) (fs : List (NodePath × Bool))
    (pre : NodePath) (level i : Nat) (ns : List FileNode) :
    ∀ row ∈ renderForest sel fs pre level i ns, ∀ p : NodePath,
      underPath pre p = true → underPath p row.path = true → flagAt fs p = true := by
  induction pre, level, i, ns using renderForest.induct sel fs with
  | case1 pre level i => simp [renderForest]
  | case2 pre level i nm ty ct lg rest ih =>
    intro row hrow p hp1 hp2
    rw [renderForest] at hrow
    rcases List.mem_cons.mp hrow with h | h
    · subst h
      have l1 := underPath_length hp1
      have l2 := underPath_length hp2
      simp at l2
      omega
    · exact ih row h p hp1 hp2
  | case3 pre level i nm ty ct cs lg rest ih1 ih2 =>
    intro row hrow p hp1 hp2
    rw [renderForest] at hrow
    rcases List.mem_cons.mp hrow with h | h
    · subst h
      have l1 := underPath_length hp1
      have l2 := underPath_length hp2
      simp at l2
      omega
    · rcases List.mem_append.mp h with h2 | h2
      · by_cases hf : flagAt fs (pre ++ [i]) = true
        · rw [if_pos hf] at h2
          have hunder := renderForest_path_under sel fs (pre ++ [i]) (level + 1) 0 cs row h2
          have l1 := underPath_length hp1
          rcases Nat.lt_trichotomy p.length (pre ++ [i]).length with hlt | heq | hgt
          · simp at hlt
            omega
          · have hpe : p = pre ++ [i] := underPath_eq_of_length hp2 hunder heq
            rw [hpe]
            exact hf
          · have hup : underPath (pre ++ [i]) p = true :=
              underPath_of_shorter hunder hp2 hgt
            exact ih1 row h2 p hup hp2
        · rw [if_neg hf] at h2
          simp at h2
      · exact ih2 row h2 p hp1 hp2

/-- C8: before any interaction every instance flag reads true, so the
tree mounts fully expanded at every depth; while a rendered node is
expanded each child of its children array is rendered as a row one
level deeper at the child index path; and below a collapsed row nothing
is rendered at all. -/
theorem c8_default_expanded_and_subtree_rendering (forest : List FileNode) (s : AppState) :
    (∀ p : NodePath, flagAt initialState.flags p = true) ∧
    (∀ row ∈ render forest s, ∀ (cs : List FileNode) (j : Nat) (c : FileNode),
      row.node.children = some cs → flagAt s.flags row.path = true → cs[j]? = some c →
      ∃ rowB ∈ render forest s, rowB.path = row.path ++ [j] ∧ rowB.node = c ∧
        rowB.level = row.level + 1) ∧
    (∀ row ∈ render forest s, flagAt s.flags row.path = false →
      ∀ rowB ∈ render forest s, underPath row.path rowB.path = false) := by
  refine ⟨fun p => rfl, ?_, ?_⟩
  · intro row hrow cs j c hch hflag hc
    exact renderForest_children_rendered s.selectedFile s.flags [] 0 0 forest
      row hrow cs j c hch hflag hc
  · intro row hrow hflag rowB hrowB
    by_contra hu
    rw [Bool.not_eq_false] at hu
    have h1 : underPath [] row.path = true :=
      renderForest_path_under s.selectedFile s.flags [] 0 0 forest row hrow
    have h2 := renderForest_ancestor_open s.selectedFile s.flags [] 0 0 forest
      rowB hrowB row.path h1 hu
    rw [hflag] at h2
    cases h2

/-- C8 witness: in the initial Scenario A state the root row is
expanded by default and its first child protocol.md is rendered one
level deeper at the extended path. -/
theorem c8_witness :
    ∃ rowB ∈ render scenarioA initialState, rowB.path = rootRow0.path ++ [0] ∧
      rowB.node = protocolNode ∧ rowB.level = rootRow0.level + 1 := by
  refine (c8_default_expanded_and_subtree_rendering scenarioA initialState).2.1 rootRow0 ?_
    [protocolNode, aGoNode] 0 protocolNode ?_ ?_ ?_
  · simp [render, renderForest, scenarioA, rootNode, protocolNode, aGoNode, flagAt,
      isSelected, initialState, rootRow0]
  · simp [rootRow0, rootNode]
  · rfl
  · rfl
